import Mathlib

/-!
Verification of the `@oslojs/binary` byte-manipulation library.

Byte sequences (`Uint8Array`) are modelled as `List Nat` whose elements are
below 256; storing into a `Uint8Array` slot applies ECMAScript `ToUint8`,
i.e. reduction modulo 256.  JavaScript `number` values and `bigint` values
are both modelled as `Int`; the 32-bit signed wrap-around that the host
applies to `<<`, `>>`, `|` and `&` on `number` operands is made explicit
below (`jsShl`, `jsShr`, `jsOr`, `jsAnd`), while `bigint` shifts and masks
are exact arithmetic (`bigShl`, `bigShr`, `bigAnd255`, `Int.lor`).
Functions that `throw` are embedded with `Except`/`Option` error results;
write operations additionally return the (possibly mutated) target, so a
rejected call's effect on the target is visible in the model.
-/

/-- ECMAScript `ToUint32`: reduce an integer modulo `2^32` into `[0, 2^32)`. -/
def toUint32 (v : Int) : Nat := (v % (2 ^ 32 : Int)).toNat

/-- Reinterpret a residue below `2^32` as a signed 32-bit integer. -/
def asInt32 (n : Nat) : Int :=
  if n % 2 ^ 32 < 2 ^ 31 then ((n % 2 ^ 32 : Nat) : Int)
  else ((n % 2 ^ 32 : Nat) : Int) - 2 ^ 32

/-- ECMAScript `ToInt32`: reduce an integer into `[-2^31, 2^31)`. -/
def toInt32 (v : Int) : Int := asInt32 (toUint32 v)

/-- JavaScript `a << s` on `number` operands: 32-bit shift, signed result. -/
def jsShl (a : Int) (s : Nat) : Int := asInt32 (toUint32 a * 2 ^ (s % 32) % 2 ^ 32)

/-- JavaScript signed right shift `a >> s` on `number` operands. -/
def jsShr (a : Int) (s : Nat) : Int := toInt32 a / 2 ^ (s % 32)

/-- JavaScript `a | b` on `number` operands: bitwise or on 32 bits, signed result. -/
def jsOr (a b : Int) : Int := asInt32 (Nat.lor (toUint32 a) (toUint32 b))

/-- JavaScript `a & b` on `number` operands: bitwise and on 32 bits, signed result. -/
def jsAnd (a b : Int) : Int := asInt32 (Nat.land (toUint32 a) (toUint32 b))

/-- JavaScript `a << s` on `bigint` operands: exact multiplication by `2^s`. -/
def bigShl (a : Int) (s : Nat) : Int := a * 2 ^ s

/-- JavaScript `a >> s` on `bigint` operands: arithmetic shift, i.e. floor
division by `2^s` (Lean's `Int` division is Euclidean, which agrees with
floor division for the positive divisor `2^s`). -/
def bigShr (a : Int) (s : Nat) : Int := a / 2 ^ s

/-- JavaScript `a & 0xffn` on a `bigint`: the two's-complement low byte,
which is the mathematical residue `a mod 256`. -/
def bigAnd255 (a : Int) : Int := a % 256

/-- Store `v` into slot `i` of a `Uint8Array` (ECMAScript `ToUint8` of an
integer is reduction modulo 256). -/
def u8set (l : List Nat) (i : Nat) (v : Int) : List Nat := l.set i ((v % 256).toNat)

/-- `BigEndian.uint8` from `src/uint.ts`. -/
def BigEndian.uint8 (data : List Nat) (offset : Nat) : Except String Int :=
  if data.length < offset + 1 then .error "Insufficient bytes"
  else .ok ((data.getD offset 0 : Nat) : Int)

/-- `BigEndian.uint16` from `src/uint.ts`: `(data[offset] << 8) | data[offset+1]`. -/
def BigEndian.uint16 (data : List Nat) (offset : Nat) : Except String Int :=
  if data.length < offset + 2 then .error "Insufficient bytes"
  else .ok (jsOr (jsShl ((data.getD offset 0 : Nat) : Int) 8) ((data.getD (offset + 1) 0 : Nat) : Int))

/-- `BigEndian.uint32` from `src/uint.ts`: `result |= data[offset+i] << (24 - i*8)`
for `i = 0..3`, under the host's 32-bit signed shift/or semantics. -/
def BigEndian.uint32 (data : List Nat) (offset : Nat) : Except String Int :=
  if data.length < offset + 4 then .error "Insufficient bytes"
  else .ok ((List.range 4).foldl
    (fun result i => jsOr result (jsShl ((data.getD (offset + i) 0 : Nat) : Int) (24 - i * 8))) 0)

/-- `BigEndian.uint64` from `src/uint.ts`: `result |= BigInt(data[offset+i]) << BigInt(56 - i*8)`
for `i = 0..7`, in exact `bigint` arithmetic. -/
def BigEndian.uint64 (data : List Nat) (offset : Nat) : Except String Int :=
  if data.length < offset + 8 then .error "Insufficient bytes"
  else .ok ((List.range 8).foldl
    (fun result i => Int.lor result (bigShl ((data.getD (offset + i) 0 : Nat) : Int) (56 - i * 8))) 0)

/-- `LittleEndian.uint8` from `src/uint.ts`. -/
def LittleEndian.uint8 (data : List Nat) (offset : Nat) : Except String Int :=
  if data.length < offset + 1 then .error "Insufficient bytes"
  else .ok ((data.getD offset 0 : Nat) : Int)

/-- `LittleEndian.uint16` from `src/uint.ts`: `data[offset] | (data[offset+1] << 8)`. -/
def LittleEndian.uint16 (data : List Nat) (offset : Nat) : Except String Int :=
  if data.length < offset + 2 then .error "Insufficient bytes"
  else .ok (jsOr ((data.getD offset 0 : Nat) : Int) (jsShl ((data.getD (offset + 1) 0 : Nat) : Int) 8))

/-- `LittleEndian.uint32` from `src/uint.ts`: `result |= data[offset+i] << (i*8)`
for `i = 0..3`, under the host's 32-bit signed shift/or semantics. -/
def LittleEndian.uint32 (data : List Nat) (offset : Nat) : Except String Int :=
  if data.length < offset + 4 then .error "Insufficient bytes"
  else .ok ((List.range 4).foldl
    (fun result i => jsOr result (jsShl ((data.getD (offset + i) 0 : Nat) : Int) (i * 8))) 0)

/-- `LittleEndian.uint64` from `src/uint.ts`: `result |= BigInt(data[offset+i]) << BigInt(i*8)`. -/
def LittleEndian.uint64 (data : List Nat) (offset : Nat) : Except String Int :=
  if data.length < offset + 8 then .error "Insufficient bytes"
  else .ok ((List.range 8).foldl
    (fun result i => Int.lor result (bigShl ((data.getD (offset + i) 0 : Nat) : Int) (i * 8))) 0)

/-- `BigEndian.putUint8` from `src/uint.ts`.  The second component is the
target as left behind by the call (unchanged when an error is thrown, since
both validations precede the store). -/
def BigEndian.putUint8 (target : List Nat) (value : Int) (offset : Nat) :
    Option String × List Nat :=
  if target.length < offset + 1 then (some "Not enough space", target)
  else if value < 0 ∨ value > 255 then (some "Invalid uint8 value", target)
  else (none, u8set target offset value)

/-- `BigEndian.putUint16` from `src/uint.ts`: stores `value >> 8` then `value & 0xff`. -/
def BigEndian.putUint16 (target : List Nat) (value : Int) (offset : Nat) :
    Option String × List Nat :=
  if target.length < offset + 2 then (some "Not enough space", target)
  else if value < 0 ∨ value > 65535 then (some "Invalid uint16 value", target)
  else (none, u8set (u8set target offset (jsShr value 8)) (offset + 1) (jsAnd value 255))

/-- `BigEndian.putUint32` from `src/uint.ts`: stores `(value >> ((3-i)*8)) & 0xff`
at `offset + i` for `i = 0..3`. -/
def BigEndian.putUint32 (target : List Nat) (value : Int) (offset : Nat) :
    Option String × List Nat :=
  if target.length < offset + 4 then (some "Not enough space", target)
  else if value < 0 ∨ value > 4294967295 then (some "Invalid uint32 value", target)
  else (none, (List.range 4).foldl
    (fun t i => u8set t (offset + i) (jsAnd (jsShr value ((3 - i) * 8)) 255)) target)

/-- `BigEndian.putUint64` from `src/uint.ts`: stores `Number((value >> BigInt((7-i)*8)) & 0xffn)`
at `offset + i` for `i = 0..7`. -/
def BigEndian.putUint64 (target : List Nat) (value : Int) (offset : Nat) :
    Option String × List Nat :=
  if target.length < offset + 8 then (some "Not enough space", target)
  else if value < 0 ∨ value > 18446744073709551615 then (some "Invalid uint64 value", target)
  else (none, (List.range 8).foldl
    (fun t i => u8set t (offset + i) (bigAnd255 (bigShr value ((7 - i) * 8)))) target)

/-- `LittleEndian.putUint8` from `src/uint.ts`. -/
def LittleEndian.putUint8 (target : List Nat) (value : Int) (offset : Nat) :
    Option String × List Nat :=
  if target.length < 1 + offset then (some "Insufficient space", target)
  else if value < 0 ∨ value > 255 then (some "Invalid uint8 value", target)
  else (none, u8set target offset value)

/-- `LittleEndian.putUint16` from `src/uint.ts`: stores `value & 0xff` then `value >> 8`. -/
def LittleEndian.putUint16 (target : List Nat) (value : Int) (offset : Nat) :
    Option String × List Nat :=
  if target.length < 2 + offset then (some "Insufficient space", target)
  else if value < 0 ∨ value > 65535 then (some "Invalid uint16 value", target)
  else (none, u8set (u8set target offset (jsAnd value 255)) (offset + 1) (jsShr value 8))

/-- `LittleEndian.putUint32` from `src/uint.ts`: stores `(value >> (i*8)) & 0xff`
at `offset + i` for `i = 0..3`. -/
def LittleEndian.putUint32 (target : List Nat) (value : Int) (offset : Nat) :
    Option String × List Nat :=
  if target.length < 4 + offset then (some "Insufficient space", target)
  else if value < 0 ∨ value > 4294967295 then (some "Invalid uint32 value", target)
  else (none, (List.range 4).foldl
    (fun t i => u8set t (offset + i) (jsAnd (jsShr value (i * 8)) 255)) target)

/-- `LittleEndian.putUint64` from `src/uint.ts`: stores `Number((value >> BigInt(i*8)) & 0xffn)`
at `offset + i` for `i = 0..7`. -/
def LittleEndian.putUint64 (target : List Nat) (value : Int) (offset : Nat) :
    Option String × List Nat :=
  if target.length < 8 + offset then (some "Insufficient space", target)
  else if value < 0 ∨ value > 18446744073709551615 then (some "Invalid uint64 value", target)
  else (none, (List.range 8).foldl
    (fun t i => u8set t (offset + i) (bigAnd255 (bigShr value (i * 8)))) target)

/-- The byte-length computation loop of `bigIntBytes` in `src/big.ts`:
`while (value > 2n ** BigInt(byteLength * 8) - 1n) byteLength++`. -/
def byteLengthAux (value : Int) (n : Nat) : Nat :=
  if value > 2 ^ (n * 8) - 1 then byteLengthAux value (n + 1) else n
termination_by value.toNat + 1 - 2 ^ (n * 8)
decreasing_by
  have h1 : (2 : Nat) ^ (n * 8) < 2 ^ ((n + 1) * 8) :=
    Nat.pow_lt_pow_right (by norm_num) (by omega)
  have hg : value > ((2 ^ (n * 8) : Nat) : Int) - 1 := by push_cast; assumption
  omega

/-- `bigIntBytes` from `src/big.ts`: magnitude, then minimal byte length
(search from 1), then the big-endian fill loop
`encoded[i] = Number((value >> BigInt((byteLength - i - 1) * 8)) & 0xffn)`. -/
def bigIntBytes (value : Int) : List Nat :=
  let v := if value < 0 then value * -1 else value
  let byteLength := byteLengthAux v 1
  (List.range byteLength).foldl
    (fun encoded i => u8set encoded i (bigAnd255 (bigShr v ((byteLength - i - 1) * 8))))
    (List.replicate byteLength 0)

/-- `bigIntFromBytes` from `src/big.ts`: empty input is rejected, otherwise
`decoded += BigInt(bytes[i]) << BigInt((bytes.byteLength - 1 - i) * 8)`. -/
def bigIntFromBytes (bytes : List Nat) : Except String Int :=
  if bytes.length < 1 then .error "Empty Uint8Array"
  else .ok ((List.range bytes.length).foldl
    (fun decoded i => decoded + bigShl ((bytes.getD i 0 : Nat) : Int) ((bytes.length - 1 - i) * 8)) 0)

/-- Model of `TypedArray.set(src, offset)` on a `Uint8Array` viewed as a list:
overwrite the segment starting at `offset` with `src` (callers in this code
always satisfy `offset + src.length ≤ l.length`, where the method cannot throw). -/
def setSeg (l : List Nat) (offset : Nat) (src : List Nat) : List Nat :=
  l.take offset ++ src ++ l.drop (offset + src.length)

/-- The `DynamicBuffer` class of `src/bytes.ts`: backing store `value`,
allocated `capacity`, logical `length`. -/
structure DynamicBuffer where
  value : List Nat
  capacity : Nat
  length : Nat
deriving Repr, DecidableEq

/-- The `DynamicBuffer` constructor: a zeroed store of the given capacity. -/
def DynamicBuffer.make (capacity : Nat) : DynamicBuffer :=
  { value := List.replicate capacity 0, capacity := capacity, length := 0 }

/-- The capacity-growth loop of `DynamicBuffer.write`:
`while (length + bytes.byteLength > capacity) capacity = capacity === 0 ? 1 : capacity * 2`
(the source writes the conditional as an if/else). -/
def growCapacity (needed cap : Nat) : Nat :=
  if needed > cap then growCapacity needed (if cap = 0 then 1 else cap * 2) else cap
termination_by needed - cap
decreasing_by
  split <;> omega

/-- `DynamicBuffer.write` from `src/bytes.ts`. -/
def DynamicBuffer.write (buf : DynamicBuffer) (bytes : List Nat) : DynamicBuffer :=
  if buf.length + bytes.length ≤ buf.capacity then
    { buf with value := setSeg buf.value buf.length bytes, length := buf.length + bytes.length }
  else
    let newCapacity := growCapacity (buf.length + bytes.length) buf.capacity
    let newValue := setSeg (List.replicate newCapacity 0) 0 (buf.value.take buf.length)
    let newValue := setSeg newValue buf.length bytes
    { value := newValue, capacity := newCapacity, length := buf.length + bytes.length }

/-- `DynamicBuffer.writeByte` from `src/bytes.ts`: at most a single doubling
(or the 0-to-1 transition), then the store `value[length] = byte`. -/
def DynamicBuffer.writeByte (buf : DynamicBuffer) (byte : Nat) : DynamicBuffer :=
  if buf.length + 1 ≤ buf.capacity then
    { buf with value := buf.value.set buf.length (byte % 256), length := buf.length + 1 }
  else
    let newCapacity := if buf.capacity = 0 then 1 else buf.capacity * 2
    let newValue := setSeg (List.replicate newCapacity 0) 0 (buf.value.take buf.length)
    let newValue := newValue.set buf.length (byte % 256)
    { value := newValue, capacity := newCapacity, length := buf.length + 1 }

/-- `DynamicBuffer.readInto` from `src/bytes.ts`: the result is the target
as left behind on success (`target.set(value.subarray(0, length))`). -/
def DynamicBuffer.readInto (buf : DynamicBuffer) (target : List Nat) :
    Except String (List Nat) :=
  if target.length < buf.length then .error "Not enough space"
  else .ok (setSeg target 0 (buf.value.take buf.length))

/-- `DynamicBuffer.bytes` from `src/bytes.ts`: `value.slice(0, length)`. -/
def DynamicBuffer.bytes (buf : DynamicBuffer) : List Nat :=
  buf.value.take buf.length

/-- `DynamicBuffer.clear` from `src/bytes.ts`. -/
def DynamicBuffer.clear (buf : DynamicBuffer) : DynamicBuffer :=
  { buf with length := 0 }

/-- A call against a `DynamicBuffer`: `write` with a chunk or `writeByte`. -/
inductive BufOp where
  | write (chunk : List Nat)
  | writeByte (b : Nat)
deriving Repr, DecidableEq

/-- Apply one call to a buffer. -/
def applyOp (buf : DynamicBuffer) (op : BufOp) : DynamicBuffer :=
  match op with
  | .write chunk => buf.write chunk
  | .writeByte b => buf.writeByte b

/-- Run a sequence of calls in order. -/
def runOps (buf : DynamicBuffer) (ops : List BufOp) : DynamicBuffer :=
  ops.foldl applyOp buf

/-- The bytes one call contributes. -/
def opBytes : BufOp → List Nat
  | .write chunk => chunk
  | .writeByte b => [b]

/-- Concatenation, in call order, of the bytes a call sequence contributes. -/
def opsBytes : List BufOp → List Nat
  | [] => []
  | op :: rest => opBytes op ++ opsBytes rest

/-- All payloads of a call sequence are genuine bytes (below 256). -/
def opsValid (ops : List BufOp) : Prop :=
  ∀ op ∈ ops, ∀ x ∈ opBytes op, x < 256

/-! ### List segment lemmas -/

theorem setSeg_length (l c : List Nat) (k : Nat) (h : k + c.length ≤ l.length) :
    (setSeg l k c).length = l.length := by
  simp only [setSeg, List.length_append, List.length_take, List.length_drop]
  omega

theorem setSeg_assoc (l c : List Nat) (k : Nat) :
    setSeg l k c = (l.take k ++ c) ++ l.drop (k + c.length) := by
  simp [setSeg]

theorem setSeg_take (l c : List Nat) (k : Nat) (h : k + c.length ≤ l.length) :
    (setSeg l k c).take (k + c.length) = l.take k ++ c := by
  rw [setSeg_assoc]
  refine List.take_left' ?_
  simp only [List.length_append, List.length_take]
  omega

theorem setSeg_seg (l c : List Nat) (k : Nat) (h : k + c.length ≤ l.length) :
    ((setSeg l k c).drop k).take c.length = c := by
  have h1 : (setSeg l k c).drop k = c ++ l.drop (k + c.length) := by
    rw [setSeg]
    rw [List.append_assoc]
    refine List.drop_left' ?_
    simp only [List.length_take]
    omega
  rw [h1]
  exact List.take_left' rfl

theorem setSeg_zero (l c : List Nat) : setSeg l 0 c = c ++ l.drop c.length := by
  simp [setSeg]

theorem set_setSeg (l c : List Nat) (k : Nat) (x : Nat) (h : k + c.length < l.length) :
    (setSeg l k c).set (k + c.length) x = setSeg l k (c ++ [x]) := by
  rw [setSeg_assoc]
  have hlen : (l.take k ++ c).length = k + c.length := by
    simp only [List.length_append, List.length_take]
    omega
  rw [List.set_append_right _ _ hlen.le, hlen]
  have hd : l.drop (k + c.length) = l.getD (k + c.length) 0 :: l.drop (k + c.length + 1) := by
    rw [List.drop_eq_getElem_cons h, List.getD_eq_getElem l 0 h]
  rw [hd]
  simp only [Nat.sub_self, List.set_cons_zero]
  simp only [setSeg, List.append_assoc, List.length_append, List.length_cons,
    List.length_nil, List.singleton_append]
  rw [show k + (c.length + (0 + 1)) = k + c.length + 1 by omega]

theorem take_set_succ (l : List Nat) (k x : Nat) (h : k < l.length) :
    (l.set k x).take (k + 1) = l.take k ++ [x] := by
  rw [List.set_eq_take_cons_drop x h]
  have hlen : (l.take k).length = k := by simp; omega
  have : k + 1 = (l.take k).length + 1 := by omega
  rw [this, List.take_append]
  simp

/-- The store loop `for i: target[offset+i] = eᵢ` rewrites the segment
`[offset, offset + m)` with the computed bytes. -/
theorem foldl_u8set_eq_setSeg (g : Nat → Int) (l : List Nat) (k : Nat) :
    ∀ m, k + m ≤ l.length →
      (List.range m).foldl (fun t i => u8set t (k + i) (g i)) l =
        setSeg l k ((List.range m).map (fun i => ((g i) % 256).toNat)) := by
  intro m
  induction m with
  | zero => intro _; simp [setSeg]
  | succ m ih =>
    intro h
    rw [List.range_succ, List.foldl_append, List.foldl_cons, List.foldl_nil,
      ih (by omega), List.map_append, List.map_cons, List.map_nil]
    have hlen : ((List.range m).map (fun i => ((g i) % 256).toNat)).length = m := by simp
    have h2 : k + ((List.range m).map (fun i => ((g i) % 256).toNat)).length < l.length := by
      rw [hlen]; omega
    have hs := set_setSeg l ((List.range m).map (fun i => ((g i) % 256).toNat)) k
      ((g m % 256).toNat) h2
    rw [hlen] at hs
    rw [u8set, hs]

/-- The fill loop of `bigIntBytes` (`encoded[i] = f i` over a freshly
allocated array of the right length) produces exactly the list of the `f i`. -/
theorem foldl_set_fill (f : Nat → Nat) :
    ∀ (n : Nat) (e : List Nat), n ≤ e.length →
      (List.range n).foldl (fun t i => t.set i (f i)) e =
        (List.range n).map f ++ e.drop n := by
  intro n
  induction n with
  | zero => intro e _; simp
  | succ n ih =>
    intro e h
    rw [List.range_succ, List.foldl_append, List.foldl_cons, List.foldl_nil,
      ih e (by omega), List.map_append, List.map_cons, List.map_nil]
    have hlen : ((List.range n).map f).length = n := by simp
    rw [List.set_append_right _ _ hlen.le, hlen, Nat.sub_self]
    have hd : e.drop n = e.getD n 0 :: e.drop (n + 1) := by
      rw [List.drop_eq_getElem_cons (by omega), List.getD_eq_getElem e 0 (by omega)]
    rw [hd, List.set_cons_zero, List.append_assoc, List.singleton_append]

theorem foldl_add_eq_sum (g : Nat → Int) (r : List Nat) :
    ∀ a, r.foldl (fun d i => d + g i) a = a + (r.map g).sum := by
  induction r with
  | nil => simp
  | cons x t ih => intro a; simp [ih, add_assoc]

/-! ### Facts about the byte-length search loop -/

theorem byteLengthAux_ge (v : Int) : ∀ n, n ≤ byteLengthAux v n := by
  refine byteLengthAux.induct v (fun n => n ≤ byteLengthAux v n) ?_ ?_
  · intro n hg ih
    rw [byteLengthAux, if_pos hg]
    omega
  · intro n hg
    rw [byteLengthAux, if_neg hg]

theorem byteLengthAux_bound (v : Int) : ∀ n,
    v ≤ 2 ^ (byteLengthAux v n * 8) - 1 := by
  refine byteLengthAux.induct v (fun n => v ≤ 2 ^ (byteLengthAux v n * 8) - 1) ?_ ?_
  · intro n hg ih
    rw [byteLengthAux, if_pos hg]
    exact ih
  · intro n hg
    rw [byteLengthAux, if_neg hg]
    omega

theorem byteLengthAux_min (v : Int) (m : Nat) (hm : v ≤ 2 ^ (m * 8) - 1) :
    ∀ n, n ≤ m → byteLengthAux v n ≤ m := by
  refine byteLengthAux.induct v (fun n => n ≤ m → byteLengthAux v n ≤ m) ?_ ?_
  · intro n hg ih hnm
    rw [byteLengthAux, if_pos hg]
    refine ih ?_
    rcases Nat.lt_or_ge n m with h | h
    · omega
    · exfalso
      have : m = n := by omega
      subst this
      omega
  · intro n hg hnm
    rw [byteLengthAux, if_neg hg]
    exact hnm

theorem growCapacity_ge (needed : Nat) : ∀ cap,
    needed ≤ growCapacity needed cap ∧ cap ≤ growCapacity needed cap := by
  refine growCapacity.induct needed
    (fun cap => needed ≤ growCapacity needed cap ∧ cap ≤ growCapacity needed cap) ?_ ?_
  · intro cap hg ih
    rw [growCapacity, if_pos hg]
    refine ⟨ih.1, le_trans ?_ ih.2⟩
    split <;> omega
  · intro cap hg
    rw [growCapacity, if_neg hg]
    omega

/-! ### Big-endian digit arithmetic (specification-side helpers) -/

/-- The value of a big-endian digit string, most significant first. -/
def beNat : List Nat → Nat
  | [] => 0
  | b :: t => b * 256 ^ t.length + beNat t

/-- The `n` big-endian base-256 digits of `x` (most significant first). -/
def beBytes (n x : Nat) : List Nat :=
  (List.range n).map (fun i => x / 2 ^ ((n - 1 - i) * 8) % 256)

theorem beBytes_length (n x : Nat) : (beBytes n x).length = n := by simp [beBytes]

theorem beBytes_succ (n x : Nat) :
    beBytes (n + 1) x = (x / 2 ^ (n * 8) % 256) :: beBytes n x := by
  rw [beBytes, List.range_succ_eq_map, List.map_cons, List.map_map]
  simp only [Nat.add_sub_cancel, Nat.sub_zero]
  rw [beBytes]
  congr 1
  refine List.map_congr_left ?_
  intro i hi
  simp only [Function.comp_apply, Nat.succ_eq_add_one]
  congr 3
  omega

theorem beNat_lt (b : List Nat) (hb : ∀ x ∈ b, x < 256) : beNat b < 256 ^ b.length := by
  induction b with
  | nil => simp [beNat]
  | cons x t ih =>
    rw [beNat, List.length_cons, pow_succ]
    have hx : x < 256 := hb x (by simp)
    have ht : beNat t < 256 ^ t.length := ih (fun y hy => hb y (by simp [hy]))
    calc x * 256 ^ t.length + beNat t < x * 256 ^ t.length + 256 ^ t.length := by omega
    _ = (x + 1) * 256 ^ t.length := by ring
    _ ≤ 256 * 256 ^ t.length := by
        have : x + 1 ≤ 256 := by omega
        exact Nat.mul_le_mul_right _ this
    _ = 256 ^ t.length * 256 := by ring

theorem two_pow_mul_eight (n : Nat) : (2 : Nat) ^ (n * 8) = 256 ^ n := by
  rw [show (256 : Nat) = 2 ^ 8 by norm_num, ← pow_mul, Nat.mul_comm]

theorem beNat_beBytes (n : Nat) : ∀ x, beNat (beBytes n x) = x % 2 ^ (n * 8) := by
  induction n with
  | zero => intro x; simp [beBytes, beNat, Nat.mod_one]
  | succ n ih =>
    intro x
    rw [beBytes_succ, beNat, beBytes_length, ih x]
    have hsplit : x % 2 ^ ((n + 1) * 8) = x % 2 ^ (n * 8) + 2 ^ (n * 8) * (x / 2 ^ (n * 8) % 256) := by
      have h8 : (2 : Nat) ^ ((n + 1) * 8) = 2 ^ (n * 8) * 256 := by
        rw [show (n + 1) * 8 = n * 8 + 8 by ring, pow_add]
        norm_num
      rw [h8, Nat.mod_mul]
    rw [hsplit, two_pow_mul_eight]
    ring

theorem beBytes_add_high (n b0 r : Nat) :
    beBytes n (b0 * 2 ^ (n * 8) + r) = beBytes n r := by
  unfold beBytes
  refine List.map_congr_left ?_
  intro i hi
  have hin : i < n := List.mem_range.mp hi
  have he : (n - 1 - i) * 8 + (i + 1) * 8 = n * 8 := by omega
  have h1 : b0 * 2 ^ (n * 8) + r =
      2 ^ ((n - 1 - i) * 8) * (b0 * 2 ^ ((i + 1) * 8)) + r := by
    rw [← he, pow_add]
    ring
  rw [h1, Nat.mul_add_div (by positivity)]
  have h2 : b0 * 2 ^ ((i + 1) * 8) = 256 * (b0 * 2 ^ ((i + 1) * 8 - 8)) := by
    have h3 : (2 : Nat) ^ ((i + 1) * 8) = 2 ^ 8 * 2 ^ ((i + 1) * 8 - 8) := by
      rw [← pow_add]
      congr 1
      omega
    rw [h3]
    norm_num
    ring
  rw [h2, Nat.add_comm (256 * (b0 * 2 ^ ((i + 1) * 8 - 8)))]
  rw [show 256 * (b0 * 2 ^ ((i + 1) * 8 - 8)) = b0 * 2 ^ ((i + 1) * 8 - 8) * 256 by ring]
  rw [Nat.add_mul_mod_self_right]

theorem beBytes_beNat (b : List Nat) (hb : ∀ x ∈ b, x < 256) :
    beBytes b.length (beNat b) = b := by
  induction b with
  | nil => simp [beBytes]
  | cons b0 t ih =>
    rw [List.length_cons, beNat, beBytes_succ]
    have hK : (256 : Nat) ^ t.length = 2 ^ (t.length * 8) := (two_pow_mul_eight t.length).symm
    have hlt : beNat t < 2 ^ (t.length * 8) := by
      rw [← hK]
      exact beNat_lt t (fun y hy => hb y (by simp [hy]))
    have hhead : (b0 * 256 ^ t.length + beNat t) / 2 ^ (t.length * 8) % 256 = b0 := by
      rw [hK, show b0 * 2 ^ (t.length * 8) + beNat t =
        2 ^ (t.length * 8) * b0 + beNat t by ring]
      rw [Nat.mul_add_div (by positivity), Nat.div_eq_of_lt hlt, Nat.add_zero]
      exact Nat.mod_eq_of_lt (hb b0 (by simp))
    have htail : beBytes t.length (b0 * 256 ^ t.length + beNat t) = t := by
      rw [hK, beBytes_add_high, ih (fun y hy => hb y (by simp [hy]))]
    rw [hhead, htail]

/-- `bigIntBytes` produces exactly the big-endian base-256 digits of the
magnitude, at the width computed by the search loop. -/
theorem bigIntBytes_eq (v : Int) :
    bigIntBytes v = beBytes (byteLengthAux ((v.natAbs : Nat) : Int) 1) v.natAbs := by
  unfold bigIntBytes
  have habs : (if v < 0 then v * -1 else v) = ((v.natAbs : Nat) : Int) := by
    split <;> omega
  simp only [habs]
  have hbody : ∀ (e : List Nat) (L i : Nat),
      u8set e i (bigAnd255 (bigShr ((v.natAbs : Nat) : Int) ((L - i - 1) * 8))) =
        e.set i (v.natAbs / 2 ^ ((L - i - 1) * 8) % 256) := by
    intro e L i
    generalize v.natAbs = m
    unfold u8set bigAnd255 bigShr
    congr 1
    rw [Int.emod_emod_of_dvd _ (dvd_refl 256)]
    norm_cast
  simp only [hbody]
  rw [foldl_set_fill _ _ _ (by simp)]
  rw [List.drop_replicate]
  simp only [Nat.sub_self, List.replicate_zero, List.append_nil]
  unfold beBytes
  refine List.map_congr_left ?_
  intro i hi
  rw [show byteLengthAux ((v.natAbs : Nat) : Int) 1 - i - 1 =
    byteLengthAux ((v.natAbs : Nat) : Int) 1 - 1 - i by omega]

theorem sum_beNat (b : List Nat) :
    ((List.range b.length).map
      (fun i => bigShl (((b.getD i 0 : Nat)) : Int) ((b.length - 1 - i) * 8))).sum =
      ((beNat b : Nat) : Int) := by
  induction b with
  | nil => simp [beNat]
  | cons x t ih =>
    rw [List.length_cons, List.range_succ_eq_map, List.map_cons, List.map_map, List.sum_cons]
    have h1 : ((fun i => bigShl ((((x :: t).getD i 0 : Nat)) : Int) ((t.length + 1 - 1 - i) * 8))
        ∘ Nat.succ) = fun i => bigShl (((t.getD i 0 : Nat)) : Int) ((t.length - 1 - i) * 8) := by
      funext i
      simp only [Function.comp_apply, List.getD_cons_succ]
      congr 2
      omega
    rw [h1, ih]
    simp only [List.getD_cons_zero, Nat.add_sub_cancel, Nat.sub_zero]
    rw [beNat]
    unfold bigShl
    push_cast
    rw [show ((2 : Int) ^ (t.length * 8)) = 256 ^ t.length by
      rw [Nat.mul_comm, pow_mul]; norm_num]

/-- `bigIntFromBytes` on a non-empty list computes the big-endian value of
its digit string. -/
theorem bigIntFromBytes_eq (b : List Nat) (hb : b ≠ []) :
    bigIntFromBytes b = .ok ((beNat b : Nat) : Int) := by
  unfold bigIntFromBytes
  rw [if_neg (by simp [hb])]
  congr 1
  rw [foldl_add_eq_sum, zero_add]
  exact sum_beNat b

theorem cast_pow_le_sub_one (m n : Nat) (h : m < 2 ^ (n * 8)) :
    ((m : Nat) : Int) ≤ 2 ^ (n * 8) - 1 := by
  have hc : ((m : Nat) : Int) < ((2 ^ (n * 8) : Nat) : Int) := by exact_mod_cast h
  have hp : ((2 ^ (n * 8) : Nat) : Int) = 2 ^ (n * 8) := by push_cast; ring
  omega

/-- On the value of a canonical digit string, the byte-length search recovers
exactly the string's length. -/
theorem byteLengthAux_beNat (b : List Nat) (hb : ∀ x ∈ b, x < 256)
    (h1 : 1 ≤ b.length) (hc : 1 < b.length → b.getD 0 0 ≠ 0) :
    byteLengthAux ((beNat b : Nat) : Int) 1 = b.length := by
  have hup : byteLengthAux ((beNat b : Nat) : Int) 1 ≤ b.length := by
    refine byteLengthAux_min _ b.length ?_ 1 h1
    refine cast_pow_le_sub_one _ _ ?_
    rw [two_pow_mul_eight]
    exact beNat_lt b hb
  have hge := byteLengthAux_ge ((beNat b : Nat) : Int) 1
  rcases Nat.lt_or_ge (byteLengthAux ((beNat b : Nat) : Int) 1) b.length with hlow | hge2
  · exfalso
    set L := byteLengthAux ((beNat b : Nat) : Int) 1 with hL
    have hbound := byteLengthAux_bound ((beNat b : Nat) : Int) 1
    rw [← hL] at hbound
    have hblt : beNat b < 2 ^ (L * 8) := by
      have hp : ((2 ^ (L * 8) : Nat) : Int) = 2 ^ (L * 8) := by push_cast; ring
      have : ((beNat b : Nat) : Int) < ((2 ^ (L * 8) : Nat) : Int) := by omega
      exact_mod_cast this
    cases b with
    | nil => simp at h1
    | cons b0 t =>
      have hb0 : 1 ≤ b0 := by
        have := hc (by simp at hlow ⊢; omega)
        simp only [List.getD_cons_zero] at this
        omega
      have hlarge : 2 ^ (t.length * 8) ≤ beNat (b0 :: t) := by
        rw [beNat, two_pow_mul_eight]
        calc (256 : Nat) ^ t.length = 1 * 256 ^ t.length := by ring
        _ ≤ b0 * 256 ^ t.length := Nat.mul_le_mul_right _ hb0
        _ ≤ b0 * 256 ^ t.length + beNat t := by omega
      have hLt : L ≤ t.length := by
        simp only [List.length_cons] at hlow
        omega
      have : (2 : Nat) ^ (L * 8) ≤ 2 ^ (t.length * 8) :=
        Nat.pow_le_pow_right (by norm_num) (by omega)
      omega
  · omega

/-- C4.  Round-trips of the arbitrary-precision codec: decode inverts encode
on every non-negative integer, and encode inverts decode on every canonical
byte sequence (non-empty, no leading zero byte unless it is the only byte). -/
theorem bigint_roundtrip :
    (∀ x : Int, 0 ≤ x → bigIntFromBytes (bigIntBytes x) = .ok x) ∧
    (∀ b : List Nat, (∀ y ∈ b, y < 256) → 1 ≤ b.length →
      (1 < b.length → b.getD 0 0 ≠ 0) →
      ∃ v, bigIntFromBytes b = .ok v ∧ bigIntBytes v = b) := by
  constructor
  · intro x hx
    rw [bigIntBytes_eq]
    set L := byteLengthAux ((x.natAbs : Nat) : Int) 1 with hL
    have hge := byteLengthAux_ge ((x.natAbs : Nat) : Int) 1
    rw [← hL] at hge
    have hne : beBytes L x.natAbs ≠ [] := by
      have := beBytes_length L x.natAbs
      intro hnil
      rw [hnil] at this
      simp at this
      omega
    rw [bigIntFromBytes_eq _ hne, beNat_beBytes]
    have hbound := byteLengthAux_bound ((x.natAbs : Nat) : Int) 1
    rw [← hL] at hbound
    have hlt : x.natAbs < 2 ^ (L * 8) := by
      have hp : ((2 ^ (L * 8) : Nat) : Int) = 2 ^ (L * 8) := by push_cast; ring
      have h2 : ((x.natAbs : Nat) : Int) < 2 ^ (L * 8) := by omega
      rw [← hp] at h2
      exact_mod_cast h2
    rw [Nat.mod_eq_of_lt hlt]
    congr 1
    omega
  · intro b hb h1 hc
    refine ⟨((beNat b : Nat) : Int), bigIntFromBytes_eq b ?_, ?_⟩
    · intro hnil
      rw [hnil] at h1
      simp at h1
    · rw [bigIntBytes_eq]
      rw [show ((beNat b : Nat) : Int).natAbs = beNat b by simp]
      rw [byteLengthAux_beNat b hb h1 hc]
      exact beBytes_beNat b hb

/-- C5.  `bigIntBytes` encodes the magnitude, big-endian, at exactly the
minimal width (search from 1): the length is at least 1, bounds the
magnitude, and is least among such widths; every byte is the corresponding
base-256 digit of the magnitude; the leading byte is nonzero for nonzero
input; zero encodes as the single byte `[0]`; and negation is discarded. -/
theorem bigIntBytes_minimal_bigendian :
    (∀ v : Int,
      v.natAbs ≤ 2 ^ ((bigIntBytes v).length * 8) - 1 ∧
      1 ≤ (bigIntBytes v).length ∧
      (∀ m : Nat, 1 ≤ m → v.natAbs ≤ 2 ^ (m * 8) - 1 → (bigIntBytes v).length ≤ m) ∧
      (∀ i, i < (bigIntBytes v).length →
        (bigIntBytes v).getD i 0 = v.natAbs / 256 ^ ((bigIntBytes v).length - 1 - i) % 256) ∧
      (v ≠ 0 → (bigIntBytes v).getD 0 0 ≠ 0) ∧
      bigIntBytes (-v) = bigIntBytes v) ∧
    bigIntBytes 0 = [0] := by
  have hzero : bigIntBytes 0 = [0] := by
    rw [bigIntBytes_eq]
    have h1 : byteLengthAux (((0 : Int).natAbs : Nat) : Int) 1 = 1 := by
      rw [byteLengthAux]
      norm_num
    rw [h1]
    simp [beBytes]
  refine ⟨fun v => ?_, hzero⟩
  have heq := bigIntBytes_eq v
  set L := byteLengthAux ((v.natAbs : Nat) : Int) 1 with hLdef
  have hlen : (bigIntBytes v).length = L := by rw [heq, beBytes_length]
  have hge : 1 ≤ L := byteLengthAux_ge ((v.natAbs : Nat) : Int) 1
  have hboundInt := byteLengthAux_bound ((v.natAbs : Nat) : Int) 1
  rw [← hLdef] at hboundInt
  have hbound : v.natAbs < 2 ^ (L * 8) := by
    have hp : ((2 ^ (L * 8) : Nat) : Int) = 2 ^ (L * 8) := by push_cast; ring
    have h2 : ((v.natAbs : Nat) : Int) < 2 ^ (L * 8) := by omega
    rw [← hp] at h2
    exact_mod_cast h2
  have hdigit : ∀ i, i < (bigIntBytes v).length →
      (bigIntBytes v).getD i 0 = v.natAbs / 256 ^ ((bigIntBytes v).length - 1 - i) % 256 := by
    intro i hi
    rw [hlen] at hi
    rw [heq, beBytes_length]
    unfold beBytes
    have hi2 : i < ((List.range L).map
        (fun i => v.natAbs / 2 ^ ((L - 1 - i) * 8) % 256)).length := by simp [hi]
    rw [List.getD_eq_getElem _ 0 hi2, List.getElem_map, List.getElem_range]
    rw [two_pow_mul_eight]
  refine ⟨by rw [hlen]; omega, by rw [hlen]; exact hge, ?_, hdigit, ?_, ?_⟩
  · intro m hm hmb
    have hpos : 0 < 2 ^ (m * 8) := Nat.pos_pow_of_pos _ (by norm_num)
    have hNat : v.natAbs < 2 ^ (m * 8) := by omega
    rw [hlen, hLdef]
    exact byteLengthAux_min _ m (cast_pow_le_sub_one v.natAbs m hNat) 1 hm
  · intro hv
    have hnz : 1 ≤ v.natAbs := by omega
    have h0 : (bigIntBytes v).getD 0 0 = v.natAbs / 256 ^ (L - 1) % 256 := by
      have hd := hdigit 0 (by rw [hlen]; omega)
      rw [hlen] at hd
      simpa using hd
    rw [h0]
    rcases Nat.eq_or_lt_of_le hge with h1 | h2
    · have hL1 : L = 1 := h1.symm
      rw [hL1]
      simp only [Nat.sub_self, pow_zero, Nat.div_one]
      rw [hL1] at hbound
      norm_num at hbound
      rw [Nat.mod_eq_of_lt hbound]
      omega
    · have hLm : L - 1 ≥ 1 := by omega
      have hmin : ¬v.natAbs ≤ 2 ^ ((L - 1) * 8) - 1 := by
        intro hcon
        have hmm := byteLengthAux_min ((v.natAbs : Nat) : Int) (L - 1)
          (cast_pow_le_sub_one _ _ (by omega)) 1 hLm
        rw [← hLdef] at hmm
        omega
      have hlow : 2 ^ ((L - 1) * 8) ≤ v.natAbs := by omega
      have hdiv1 : 1 ≤ v.natAbs / 256 ^ (L - 1) := by
        rw [← two_pow_mul_eight]
        exact (Nat.one_le_div_iff (by positivity)).mpr hlow
      have hdiv2 : v.natAbs / 256 ^ (L - 1) < 256 := by
        rw [← two_pow_mul_eight]
        refine Nat.div_lt_of_lt_mul ?_
        have : (2 : Nat) ^ ((L - 1) * 8) * 256 = 2 ^ (L * 8) := by
          rw [show (256 : Nat) = 2 ^ 8 by norm_num, ← pow_add]
          congr 1
          omega
        omega
      rw [Nat.mod_eq_of_lt hdiv2]
      omega
  · rw [heq, bigIntBytes_eq]
    simp only [Int.natAbs_neg]

/-- C6.  `bigIntFromBytes` fails exactly on the empty sequence; on a
non-empty sequence of length `n` it returns `Σ bytes[i] * 256^(n-1-i)`, so a
leading zero byte never changes the decoded value (decode is lenient). -/
theorem bigIntFromBytes_spec :
    ∀ b : List Nat,
      ((∃ e, bigIntFromBytes b = .error e) ↔ b = []) ∧
      (b ≠ [] → bigIntFromBytes b =
        .ok (((List.range b.length).map
          (fun i => ((b.getD i 0 : Nat) : Int) * 256 ^ (b.length - 1 - i))).sum)) ∧
      (b ≠ [] → bigIntFromBytes (0 :: b) = bigIntFromBytes b) := by
  intro b
  refine ⟨?_, ?_, ?_⟩
  · cases b with
    | nil => simp [bigIntFromBytes]
    | cons x t =>
      rw [bigIntFromBytes_eq _ (by simp)]
      simp
  · intro hb
    rw [bigIntFromBytes_eq _ hb, ← sum_beNat b]
    congr 1
    congr 1
    refine List.map_congr_left ?_
    intro i hi
    unfold bigShl
    rw [show ((2 : Int) ^ ((b.length - 1 - i) * 8)) = 256 ^ (b.length - 1 - i) by
      rw [Nat.mul_comm, pow_mul]; norm_num]
  · intro hb
    rw [bigIntFromBytes_eq _ (by simp), bigIntFromBytes_eq _ hb]
    rw [show beNat (0 :: b) = beNat b by rw [beNat]; ring]

/-- C2.  For every width and byte order, a put call with an out-of-range
value or an undersized target fails, and leaves the target byte-for-byte
unchanged (validation precedes every store). -/
theorem put_rejected_unchanged :
    ∀ (target : List Nat) (v : Int) (k : Nat),
      ((v < 0 ∨ v > 255 ∨ target.length < k + 1) →
        (BigEndian.putUint8 target v k).1.isSome = true ∧
          (BigEndian.putUint8 target v k).2 = target) ∧
      ((v < 0 ∨ v > 65535 ∨ target.length < k + 2) →
        (BigEndian.putUint16 target v k).1.isSome = true ∧
          (BigEndian.putUint16 target v k).2 = target) ∧
      ((v < 0 ∨ v > 4294967295 ∨ target.length < k + 4) →
        (BigEndian.putUint32 target v k).1.isSome = true ∧
          (BigEndian.putUint32 target v k).2 = target) ∧
      ((v < 0 ∨ v > 18446744073709551615 ∨ target.length < k + 8) →
        (BigEndian.putUint64 target v k).1.isSome = true ∧
          (BigEndian.putUint64 target v k).2 = target) ∧
      ((v < 0 ∨ v > 255 ∨ target.length < k + 1) →
        (LittleEndian.putUint8 target v k).1.isSome = true ∧
          (LittleEndian.putUint8 target v k).2 = target) ∧
      ((v < 0 ∨ v > 65535 ∨ target.length < k + 2) →
        (LittleEndian.putUint16 target v k).1.isSome = true ∧
          (LittleEndian.putUint16 target v k).2 = target) ∧
      ((v < 0 ∨ v > 4294967295 ∨ target.length < k + 4) →
        (LittleEndian.putUint32 target v k).1.isSome = true ∧
          (LittleEndian.putUint32 target v k).2 = target) ∧
      ((v < 0 ∨ v > 18446744073709551615 ∨ target.length < k + 8) →
        (LittleEndian.putUint64 target v k).1.isSome = true ∧
          (LittleEndian.putUint64 target v k).2 = target) := by
  refine fun target v k => ⟨?_, ?_, ?_, ?_, ?_, ?_, ?_, ?_⟩ <;> intro h
  · unfold BigEndian.putUint8
    split
    · exact ⟨rfl, rfl⟩
    · split
      · exact ⟨rfl, rfl⟩
      · exfalso; omega
  · unfold BigEndian.putUint16
    split
    · exact ⟨rfl, rfl⟩
    · split
      · exact ⟨rfl, rfl⟩
      · exfalso; omega
  · unfold BigEndian.putUint32
    split
    · exact ⟨rfl, rfl⟩
    · split
      · exact ⟨rfl, rfl⟩
      · exfalso; omega
  · unfold BigEndian.putUint64
    split
    · exact ⟨rfl, rfl⟩
    · split
      · exact ⟨rfl, rfl⟩
      · exfalso; omega
  · unfold LittleEndian.putUint8
    split
    · exact ⟨rfl, rfl⟩
    · split
      · exact ⟨rfl, rfl⟩
      · exfalso; omega
  · unfold LittleEndian.putUint16
    split
    · exact ⟨rfl, rfl⟩
    · split
      · exact ⟨rfl, rfl⟩
      · exfalso; omega
  · unfold LittleEndian.putUint32
    split
    · exact ⟨rfl, rfl⟩
    · split
      · exact ⟨rfl, rfl⟩
      · exfalso; omega
  · unfold LittleEndian.putUint64
    split
    · exact ⟨rfl, rfl⟩
    · split
      · exact ⟨rfl, rfl⟩
      · exfalso; omega

/-- C3.  For every width and byte order: a read fails exactly when the data
runs out before `offset + width/8` bytes (reads are embedded as pure
functions, matching a source body with no store into `data`), and a put
fails exactly when the target is too short or the value is out of range. -/
theorem read_put_error_iff :
    ∀ (data : List Nat) (v : Int) (k : Nat),
      ((∃ e, BigEndian.uint8 data k = .error e) ↔ data.length < k + 1) ∧
      ((∃ e, BigEndian.uint16 data k = .error e) ↔ data.length < k + 2) ∧
      ((∃ e, BigEndian.uint32 data k = .error e) ↔ data.length < k + 4) ∧
      ((∃ e, BigEndian.uint64 data k = .error e) ↔ data.length < k + 8) ∧
      ((∃ e, LittleEndian.uint8 data k = .error e) ↔ data.length < k + 1) ∧
      ((∃ e, LittleEndian.uint16 data k = .error e) ↔ data.length < k + 2) ∧
      ((∃ e, LittleEndian.uint32 data k = .error e) ↔ data.length < k + 4) ∧
      ((∃ e, LittleEndian.uint64 data k = .error e) ↔ data.length < k + 8) ∧
      ((BigEndian.putUint8 data v k).1.isSome = true ↔
        (data.length < k + 1 ∨ v < 0 ∨ v > 255)) ∧
      ((BigEndian.putUint16 data v k).1.isSome = true ↔
        (data.length < k + 2 ∨ v < 0 ∨ v > 65535)) ∧
      ((BigEndian.putUint32 data v k).1.isSome = true ↔
        (data.length < k + 4 ∨ v < 0 ∨ v > 4294967295)) ∧
      ((BigEndian.putUint64 data v k).1.isSome = true ↔
        (data.length < k + 8 ∨ v < 0 ∨ v > 18446744073709551615)) ∧
      ((LittleEndian.putUint8 data v k).1.isSome = true ↔
        (data.length < k + 1 ∨ v < 0 ∨ v > 255)) ∧
      ((LittleEndian.putUint16 data v k).1.isSome = true ↔
        (data.length < k + 2 ∨ v < 0 ∨ v > 65535)) ∧
      ((LittleEndian.putUint32 data v k).1.isSome = true ↔
        (data.length < k + 4 ∨ v < 0 ∨ v > 4294967295)) ∧
      ((LittleEndian.putUint64 data v k).1.isSome = true ↔
        (data.length < k + 8 ∨ v < 0 ∨ v > 18446744073709551615)) := by
  refine fun data v k =>
    ⟨?_, ?_, ?_, ?_, ?_, ?_, ?_, ?_, ?_, ?_, ?_, ?_, ?_, ?_, ?_, ?_⟩
  · unfold BigEndian.uint8
    split <;> simp [*]
  · unfold BigEndian.uint16
    split <;> simp [*]
  · unfold BigEndian.uint32
    split <;> simp [*]
  · unfold BigEndian.uint64
    split <;> simp [*]
  · unfold LittleEndian.uint8
    split <;> simp [*]
  · unfold LittleEndian.uint16
    split <;> simp [*]
  · unfold LittleEndian.uint32
    split <;> simp [*]
  · unfold LittleEndian.uint64
    split <;> simp [*]
  · unfold BigEndian.putUint8
    split
    · simp
      omega
    · split <;> (simp; omega)
  · unfold BigEndian.putUint16
    split
    · simp
      omega
    · split <;> (simp; omega)
  · unfold BigEndian.putUint32
    split
    · simp
      omega
    · split <;> (simp; omega)
  · unfold BigEndian.putUint64
    split
    · simp
      omega
    · split <;> (simp; omega)
  · unfold LittleEndian.putUint8
    split
    · simp
      omega
    · split <;> (simp; omega)
  · unfold LittleEndian.putUint16
    split
    · simp
      omega
    · split <;> (simp; omega)
  · unfold LittleEndian.putUint32
    split
    · simp
      omega
    · split <;> (simp; omega)
  · unfold LittleEndian.putUint64
    split
    · simp
      omega
    · split <;> (simp; omega)

/-- C1 is violated at width 32: the read loop accumulates through the host's
32-bit signed `<<`/`|`, so writing `2^31` with `putUint32` into four zero
bytes stores the correct bytes `[0x80,0,0,0]`, but reading them back with
`uint32` yields the sign-wrapped `-2^31` instead of `2^31` (the code's own
doc comment promises a result in `[0, 4294967295]`). -/
theorem uint32_roundtrip_pow31_wraps :
    BigEndian.putUint32 (List.replicate 4 0) 2147483648 0 = (none, [128, 0, 0, 0]) ∧
    BigEndian.uint32 [128, 0, 0, 0] 0 = .ok (-2147483648) ∧
    LittleEndian.putUint32 (List.replicate 4 0) 2147483648 0 = (none, [0, 0, 0, 128]) ∧
    LittleEndian.uint32 [0, 0, 0, 128] 0 = .ok (-2147483648) ∧
    ((-2147483648 : Int) ≠ 2147483648) := by
  exact ⟨by decide, by rfl, by decide, by rfl, by decide⟩

theorem u8set_eq_setSeg (t : List Nat) (k : Nat) (a : Int) (h : k < t.length) :
    u8set t k a = setSeg t k [(a % 256).toNat] := by
  unfold u8set setSeg
  rw [List.set_eq_take_cons_drop _ h]
  simp

theorem u8set_u8set_slice (t : List Nat) (k : Nat) (a b : Int) (h : k + 2 ≤ t.length) :
    ((u8set (u8set t k a) (k + 1) b).drop k).take 2 =
      [(a % 256).toNat, (b % 256).toNat] := by
  rw [u8set_eq_setSeg t k a (by omega)]
  have hs := set_setSeg t [(a % 256).toNat] k ((b % 256).toNat) (by simp; omega)
  simp only [List.length_cons, List.length_nil, Nat.zero_add] at hs
  unfold u8set
  rw [hs]
  have hseg := setSeg_seg t [(a % 256).toNat, (b % 256).toNat] k (by simp; omega)
  simpa using hseg

theorem foldl_u8set_slice (g : Nat → Int) (t : List Nat) (k m : Nat)
    (h : k + m ≤ t.length) :
    (((List.range m).foldl (fun l i => u8set l (k + i) (g i)) t).drop k).take m =
      (List.range m).map (fun i => ((g i) % 256).toNat) := by
  rw [foldl_u8set_eq_setSeg g t k m h]
  have hseg := setSeg_seg t ((List.range m).map (fun i => ((g i) % 256).toNat)) k
    (by simp; omega)
  simpa using hseg

/-- C7.  For the same in-range value and offset, the bytes stored by the
big-endian put are exactly the reversal of those stored by the little-endian
put at widths 16/32/64, and the two putUint8 calls coincide entirely. -/
theorem put_byte_reversal :
    ∀ (target : List Nat) (v : Int) (k : Nat),
      (k + 1 ≤ target.length → 0 ≤ v → v ≤ 255 →
        BigEndian.putUint8 target v k = LittleEndian.putUint8 target v k) ∧
      (k + 2 ≤ target.length → 0 ≤ v → v ≤ 65535 →
        ((BigEndian.putUint16 target v k).2.drop k).take 2 =
          ((((LittleEndian.putUint16 target v k).2.drop k).take 2)).reverse) ∧
      (k + 4 ≤ target.length → 0 ≤ v → v ≤ 4294967295 →
        ((BigEndian.putUint32 target v k).2.drop k).take 4 =
          ((((LittleEndian.putUint32 target v k).2.drop k).take 4)).reverse) ∧
      (k + 8 ≤ target.length → 0 ≤ v → v ≤ 18446744073709551615 →
        ((BigEndian.putUint64 target v k).2.drop k).take 8 =
          ((((LittleEndian.putUint64 target v k).2.drop k).take 8)).reverse) := by
  refine fun target v k => ⟨?_, ?_, ?_, ?_⟩ <;> intro h1 h2 h3
  · have e1 : ¬target.length < k + 1 := by omega
    have e2 : ¬target.length < 1 + k := by omega
    have e3 : ¬(v < 0 ∨ v > 255) := by omega
    simp only [BigEndian.putUint8, LittleEndian.putUint8, e1, e2, e3, if_false]
  · have e1 : ¬target.length < k + 2 := by omega
    have e2 : ¬target.length < 2 + k := by omega
    have e3 : ¬(v < 0 ∨ v > 65535) := by omega
    simp only [BigEndian.putUint16, LittleEndian.putUint16, e1, e2, e3, if_false]
    rw [u8set_u8set_slice _ _ _ _ h1, u8set_u8set_slice _ _ _ _ h1]
    simp
  · have e1 : ¬target.length < k + 4 := by omega
    have e2 : ¬target.length < 4 + k := by omega
    have e3 : ¬(v < 0 ∨ v > 4294967295) := by omega
    simp only [BigEndian.putUint32, LittleEndian.putUint32, e1, e2, e3, if_false]
    rw [foldl_u8set_slice _ _ _ _ h1, foldl_u8set_slice _ _ _ _ h1]
    norm_num [List.range_succ]
  · have e1 : ¬target.length < k + 8 := by omega
    have e2 : ¬target.length < 8 + k := by omega
    have e3 : ¬(v < 0 ∨ v > 18446744073709551615) := by omega
    simp only [BigEndian.putUint64, LittleEndian.putUint64, e1, e2, e3, if_false]
    rw [foldl_u8set_slice _ _ _ _ h1, foldl_u8set_slice _ _ _ _ h1]
    norm_num [List.range_succ]

/-! ### DynamicBuffer facts -/

theorem take_left_of_length (a b : List Nat) : (a ++ b).take a.length = a :=
  List.take_left a b

theorem write_spec (buf : DynamicBuffer) (c : List Nat)
    (hwf : buf.value.length = buf.capacity) (hlc : buf.length ≤ buf.capacity) :
    (buf.write c).value.length = (buf.write c).capacity ∧
    (buf.write c).length = buf.length + c.length ∧
    (buf.write c).length ≤ (buf.write c).capacity ∧
    (buf.write c).bytes = buf.bytes ++ c := by
  unfold DynamicBuffer.write
  split
  next hfit =>
    refine ⟨?_, rfl, hfit, ?_⟩
    · simpa [setSeg_length buf.value c buf.length (by omega)] using hwf
    · show (setSeg buf.value buf.length c).take (buf.length + c.length) = buf.bytes ++ c
      rw [setSeg_take buf.value c buf.length (by omega)]
      rfl
  next hbig =>
    have hGC := growCapacity_ge (buf.length + c.length) buf.capacity
    have htl : (buf.value.take buf.length).length = buf.length := by
      simp
      omega
    have hinner : (setSeg (List.replicate (growCapacity (buf.length + c.length) buf.capacity) 0)
        0 (buf.value.take buf.length)).length =
        growCapacity (buf.length + c.length) buf.capacity := by
      rw [setSeg_length]
      · simp
      · simp
        omega
    refine ⟨?_, rfl, ?_, ?_⟩
    · show (setSeg _ buf.length c).length = _
      rw [setSeg_length]
      · exact hinner
      · rw [hinner]
        omega
    · show buf.length + c.length ≤ growCapacity (buf.length + c.length) buf.capacity
      exact hGC.1
    · show (setSeg _ buf.length c).take (buf.length + c.length) = buf.bytes ++ c
      rw [setSeg_take _ c buf.length (by rw [hinner]; omega)]
      congr 1
      rw [setSeg_zero, List.take_left' htl]
      rfl

theorem writeByte_spec (buf : DynamicBuffer) (b : Nat)
    (hwf : buf.value.length = buf.capacity) (hlc : buf.length ≤ buf.capacity) :
    (buf.writeByte b).value.length = (buf.writeByte b).capacity ∧
    (buf.writeByte b).length = buf.length + 1 ∧
    (buf.writeByte b).length ≤ (buf.writeByte b).capacity ∧
    (buf.writeByte b).bytes = buf.bytes ++ [b % 256] ∧
    (buf.writeByte b).capacity = (if buf.length + 1 ≤ buf.capacity then buf.capacity
      else if buf.capacity = 0 then 1 else buf.capacity * 2) := by
  unfold DynamicBuffer.writeByte
  split
  next hfit =>
    refine ⟨by simpa using hwf, rfl, hfit, ?_, rfl⟩
    show (buf.value.set buf.length (b % 256)).take (buf.length + 1) = buf.bytes ++ [b % 256]
    rw [take_set_succ buf.value buf.length (b % 256) (by omega)]
    rfl
  next hbig =>
    have hlen : buf.length = buf.capacity := by omega
    have hNpos : buf.length < (if buf.capacity = 0 then 1 else buf.capacity * 2) := by
      split <;> omega
    have htl : (buf.value.take buf.length).length = buf.length := by
      simp
      omega
    have hinner : (setSeg (List.replicate (if buf.capacity = 0 then 1 else buf.capacity * 2) 0)
        0 (buf.value.take buf.length)).length =
        (if buf.capacity = 0 then 1 else buf.capacity * 2) := by
      rw [setSeg_length]
      · simp
      · simp
        omega
    refine ⟨?_, rfl, ?_, ?_, rfl⟩
    · show ((setSeg _ 0 _).set buf.length (b % 256)).length = _
      rw [List.length_set]
      exact hinner
    · show buf.length + 1 ≤ (if buf.capacity = 0 then 1 else buf.capacity * 2)
      omega
    · show ((setSeg _ 0 _).set buf.length (b % 256)).take (buf.length + 1) =
        buf.bytes ++ [b % 256]
      rw [take_set_succ _ buf.length (b % 256) (by rw [hinner]; omega)]
      congr 1
      rw [setSeg_zero, List.take_left' htl]
      rfl

theorem runOps_spec : ∀ (ops : List BufOp) (buf : DynamicBuffer),
    buf.value.length = buf.capacity → buf.length ≤ buf.capacity → opsValid ops →
    (runOps buf ops).value.length = (runOps buf ops).capacity ∧
    (runOps buf ops).length = buf.length + (opsBytes ops).length ∧
    (runOps buf ops).length ≤ (runOps buf ops).capacity ∧
    (runOps buf ops).bytes = buf.bytes ++ opsBytes ops := by
  intro ops
  induction ops with
  | nil =>
    intro buf hwf hlc _
    exact ⟨hwf, by simp [runOps, opsBytes], by simpa [runOps] using hlc,
      by simp [runOps, opsBytes]⟩
  | cons op rest ih =>
    intro buf hwf hlc hval
    have hvrest : opsValid rest := fun o ho x hx => hval o (by simp [ho]) x hx
    have hrun : runOps buf (op :: rest) = runOps (applyOp buf op) rest := rfl
    cases op with
    | write chunk =>
      have hs := write_spec buf chunk hwf hlc
      have := ih (buf.write chunk) hs.1 hs.2.2.1
      rw [hrun]
      have happ : applyOp buf (BufOp.write chunk) = buf.write chunk := rfl
      rw [happ]
      refine ⟨(this hvrest).1, ?_, (this hvrest).2.2.1, ?_⟩
      · rw [(this hvrest).2.1, hs.2.1]
        simp [opsBytes, opBytes]
        omega
      · rw [(this hvrest).2.2.2, hs.2.2.2]
        simp [opsBytes, opBytes]
    | writeByte b =>
      have hb : b < 256 := hval (BufOp.writeByte b) (by simp) b (by simp [opBytes])
      have hs := writeByte_spec buf b hwf hlc
      have := ih (buf.writeByte b) hs.1 hs.2.2.1
      rw [hrun]
      have happ : applyOp buf (BufOp.writeByte b) = buf.writeByte b := rfl
      rw [happ]
      refine ⟨(this hvrest).1, ?_, (this hvrest).2.2.1, ?_⟩
      · rw [(this hvrest).2.1, hs.2.1]
        simp [opsBytes, opBytes]
        omega
      · rw [(this hvrest).2.2.2, hs.2.2.2.1, Nat.mod_eq_of_lt hb]
        simp [opsBytes, opBytes]

/-- C9.  Starting from any freshly constructed buffer, a sequence of `write`
and `writeByte` calls delivering `N` bytes in total leaves `length = N` and
`capacity ≥ N`, makes `bytes()` return exactly the written bytes in call
order, and `readInto` copies exactly those `N` bytes (the rest of the
destination is untouched) — storage beyond `length` is never exposed. -/
theorem dynbuf_accumulates :
    ∀ (cap : Nat) (ops : List BufOp), opsValid ops →
      (runOps (DynamicBuffer.make cap) ops).length = (opsBytes ops).length ∧
      (opsBytes ops).length ≤ (runOps (DynamicBuffer.make cap) ops).capacity ∧
      (runOps (DynamicBuffer.make cap) ops).bytes = opsBytes ops ∧
      (∀ target : List Nat, (opsBytes ops).length ≤ target.length →
        (runOps (DynamicBuffer.make cap) ops).readInto target =
          .ok (opsBytes ops ++ target.drop (opsBytes ops).length)) := by
  intro cap ops hval
  have hwf : (DynamicBuffer.make cap).value.length = (DynamicBuffer.make cap).capacity := by
    simp [DynamicBuffer.make]
  have hlc : (DynamicBuffer.make cap).length ≤ (DynamicBuffer.make cap).capacity := by
    simp [DynamicBuffer.make]
  obtain ⟨h1, h2, h3, h4⟩ := runOps_spec ops (DynamicBuffer.make cap) hwf hlc hval
  have hmk0 : (DynamicBuffer.make cap).length = 0 := rfl
  have hmkbytes : (DynamicBuffer.make cap).bytes = [] := by
    simp [DynamicBuffer.make, DynamicBuffer.bytes]
  rw [hmk0] at h2
  rw [hmkbytes] at h4
  simp only [Nat.zero_add, List.nil_append] at h2 h4
  refine ⟨h2, by omega, h4, ?_⟩
  intro target htar
  unfold DynamicBuffer.readInto
  rw [if_neg (by omega)]
  rw [setSeg_zero]
  have : (runOps (DynamicBuffer.make cap) ops).value.take
      (runOps (DynamicBuffer.make cap) ops).length = opsBytes ops := h4
  rw [this]

theorem write_len_cap (buf : DynamicBuffer) (c : List Nat) :
    (buf.write c).length = buf.length + c.length ∧
    (buf.write c).capacity = (if buf.length + c.length ≤ buf.capacity then buf.capacity
      else growCapacity (buf.length + c.length) buf.capacity) := by
  unfold DynamicBuffer.write
  split
  · exact ⟨rfl, rfl⟩
  · exact ⟨rfl, rfl⟩

/-- C8.  A buffer constructed with capacity 0, after writing a 1-byte chunk,
then a 100-byte chunk, then a 27-byte chunk, has `length = 128` and
`capacity = 128` (repeated doubling from the 0-to-1 transition). -/
theorem dynbuf_growth_scenario :
    ∀ c1 c2 c3 : List Nat, c1.length = 1 → c2.length = 100 → c3.length = 27 →
      ((((DynamicBuffer.make 0).write c1).write c2).write c3).length = 128 ∧
      ((((DynamicBuffer.make 0).write c1).write c2).write c3).capacity = 128 := by
  intro c1 c2 c3 h1 h2 h3
  have g1 : growCapacity 1 0 = 1 := by
    rw [growCapacity]
    norm_num
    rw [growCapacity]
    norm_num
  have g2 : growCapacity 101 1 = 128 := by
    repeat (rw [growCapacity]; norm_num)
  have m0len : (DynamicBuffer.make 0).length = 0 := rfl
  have m0cap : (DynamicBuffer.make 0).capacity = 0 := rfl
  obtain ⟨hl1, hc1⟩ := write_len_cap (DynamicBuffer.make 0) c1
  rw [m0len, h1] at hl1
  norm_num at hl1
  rw [m0len, m0cap, h1] at hc1
  norm_num at hc1
  rw [g1] at hc1
  obtain ⟨hl2, hc2⟩ := write_len_cap ((DynamicBuffer.make 0).write c1) c2
  rw [hl1, h2] at hl2
  norm_num at hl2
  rw [hl1, hc1, h2] at hc2
  norm_num at hc2
  rw [g2] at hc2
  obtain ⟨hl3, hc3⟩ := write_len_cap (((DynamicBuffer.make 0).write c1).write c2) c3
  rw [hl2, h3] at hl3
  norm_num at hl3
  rw [hl2, hc2, h3] at hc3
  norm_num at hc3
  exact ⟨hl3, hc3⟩

/-- C10.  From any well-formed state (`length ≤ capacity`, backing store of
size `capacity`), one `writeByte` appends the byte at index `length`,
increments `length`, keeps `capacity` when the byte fits and otherwise
performs exactly one growth step to `max 1 (2 * capacity)` — which always
suffices, so `length ≤ capacity` is preserved. -/
theorem writeByte_single_growth :
    ∀ (buf : DynamicBuffer) (b : Nat), b < 256 →
      buf.value.length = buf.capacity → buf.length ≤ buf.capacity →
      (buf.writeByte b).length = buf.length + 1 ∧
      (buf.writeByte b).bytes = buf.bytes ++ [b] ∧
      (buf.writeByte b).value.length = (buf.writeByte b).capacity ∧
      (buf.writeByte b).capacity = (if buf.length + 1 ≤ buf.capacity then buf.capacity
        else max 1 (2 * buf.capacity)) ∧
      (buf.writeByte b).length ≤ (buf.writeByte b).capacity := by
  intro buf b hb hwf hlc
  obtain ⟨h1, h2, h3, h4, h5⟩ := writeByte_spec buf b hwf hlc
  rw [Nat.mod_eq_of_lt hb] at h4
  refine ⟨h2, h4, h1, ?_, h3⟩
  rw [h5]
  split
  · rfl
  · split <;> omega

/-! ### Concrete witnesses -/

theorem put_rejected_unchanged_witness :
    ((BigEndian.putUint8 [] (-1) 0).1.isSome = true ∧ (BigEndian.putUint8 [] (-1) 0).2 = []) ∧
    ((BigEndian.putUint16 [] (-1) 0).1.isSome = true ∧ (BigEndian.putUint16 [] (-1) 0).2 = []) ∧
    ((BigEndian.putUint32 [] (-1) 0).1.isSome = true ∧ (BigEndian.putUint32 [] (-1) 0).2 = []) ∧
    ((BigEndian.putUint64 [] (-1) 0).1.isSome = true ∧ (BigEndian.putUint64 [] (-1) 0).2 = []) ∧
    ((LittleEndian.putUint8 [] (-1) 0).1.isSome = true ∧ (LittleEndian.putUint8 [] (-1) 0).2 = []) ∧
    ((LittleEndian.putUint16 [] (-1) 0).1.isSome = true ∧ (LittleEndian.putUint16 [] (-1) 0).2 = []) ∧
    ((LittleEndian.putUint32 [] (-1) 0).1.isSome = true ∧ (LittleEndian.putUint32 [] (-1) 0).2 = []) ∧
    ((LittleEndian.putUint64 [] (-1) 0).1.isSome = true ∧ (LittleEndian.putUint64 [] (-1) 0).2 = []) :=
  ⟨(put_rejected_unchanged [] (-1) 0).1 (by decide),
   (put_rejected_unchanged [] (-1) 0).2.1 (by decide),
   (put_rejected_unchanged [] (-1) 0).2.2.1 (by decide),
   (put_rejected_unchanged [] (-1) 0).2.2.2.1 (by decide),
   (put_rejected_unchanged [] (-1) 0).2.2.2.2.1 (by decide),
   (put_rejected_unchanged [] (-1) 0).2.2.2.2.2.1 (by decide),
   (put_rejected_unchanged [] (-1) 0).2.2.2.2.2.2.1 (by decide),
   (put_rejected_unchanged [] (-1) 0).2.2.2.2.2.2.2 (by decide)⟩

theorem read_put_error_iff_witness :
    ((∃ e, BigEndian.uint8 [] 0 = .error e) ↔ ([] : List Nat).length < 0 + 1) ∧
    ((BigEndian.putUint8 [] 0 0).1.isSome = true ↔
      (([] : List Nat).length < 0 + 1 ∨ (0 : Int) < 0 ∨ (0 : Int) > 255)) :=
  ⟨(read_put_error_iff [] 0 0).1, (read_put_error_iff [] 0 0).2.2.2.2.2.2.2.2.1⟩

theorem bigint_roundtrip_witness :
    bigIntFromBytes (bigIntBytes 300) = .ok 300 ∧
    (∃ v, bigIntFromBytes [1, 44] = .ok v ∧ bigIntBytes v = [1, 44]) :=
  ⟨bigint_roundtrip.1 300 (by norm_num),
   bigint_roundtrip.2 [1, 44] (by decide) (by decide) (by decide)⟩

theorem bigIntBytes_minimal_witness :
    (bigIntBytes 300).length ≤ 2 ∧
    (bigIntBytes 300).getD 0 0 ≠ 0 ∧
    bigIntBytes (-300) = bigIntBytes 300 :=
  ⟨(bigIntBytes_minimal_bigendian.1 300).2.2.1 2 (by norm_num) (by decide),
   (bigIntBytes_minimal_bigendian.1 300).2.2.2.2.1 (by decide),
   (bigIntBytes_minimal_bigendian.1 300).2.2.2.2.2⟩

theorem bigIntFromBytes_spec_witness :
    bigIntFromBytes [1, 44] =
      .ok (((List.range ([1, 44] : List Nat).length).map
        (fun i => ((([1, 44] : List Nat).getD i 0 : Nat) : Int) *
          256 ^ (([1, 44] : List Nat).length - 1 - i))).sum) ∧
    bigIntFromBytes (0 :: [1, 44]) = bigIntFromBytes [1, 44] :=
  ⟨(bigIntFromBytes_spec [1, 44]).2.1 (by decide),
   (bigIntFromBytes_spec [1, 44]).2.2 (by decide)⟩

theorem put_byte_reversal_witness :
    BigEndian.putUint8 [0] 7 0 = LittleEndian.putUint8 [0] 7 0 ∧
    ((BigEndian.putUint16 [0, 0] 258 0).2.drop 0).take 2 =
      ((((LittleEndian.putUint16 [0, 0] 258 0).2.drop 0).take 2)).reverse ∧
    ((BigEndian.putUint32 [0, 0, 0, 0] 16909060 0).2.drop 0).take 4 =
      ((((LittleEndian.putUint32 [0, 0, 0, 0] 16909060 0).2.drop 0).take 4)).reverse ∧
    ((BigEndian.putUint64 [0, 0, 0, 0, 0, 0, 0, 0] 72623859790382856 0).2.drop 0).take 8 =
      ((((LittleEndian.putUint64 [0, 0, 0, 0, 0, 0, 0, 0] 72623859790382856 0).2.drop 0).take 8)).reverse :=
  ⟨(put_byte_reversal [0] 7 0).1 (by norm_num) (by norm_num) (by norm_num),
   (put_byte_reversal [0, 0] 258 0).2.1 (by norm_num) (by norm_num) (by norm_num),
   (put_byte_reversal [0, 0, 0, 0] 16909060 0).2.2.1 (by norm_num) (by norm_num) (by norm_num),
   (put_byte_reversal [0, 0, 0, 0, 0, 0, 0, 0] 72623859790382856 0).2.2.2
     (by norm_num) (by norm_num) (by norm_num)⟩

theorem dynbuf_growth_scenario_witness :
    ((((DynamicBuffer.make 0).write (List.replicate 1 0)).write
      (List.replicate 100 0)).write (List.replicate 27 0)).length = 128 ∧
    ((((DynamicBuffer.make 0).write (List.replicate 1 0)).write
      (List.replicate 100 0)).write (List.replicate 27 0)).capacity = 128 :=
  dynbuf_growth_scenario (List.replicate 1 0) (List.replicate 100 0)
    (List.replicate 27 0) (by simp) (by simp) (by simp)

theorem dynbuf_accumulates_witness :
    (runOps (DynamicBuffer.make 2) [.write [7, 8], .writeByte 9]).length =
      (opsBytes [.write [7, 8], .writeByte 9]).length ∧
    (opsBytes [.write [7, 8], .writeByte 9]).length ≤
      (runOps (DynamicBuffer.make 2) [.write [7, 8], .writeByte 9]).capacity ∧
    (runOps (DynamicBuffer.make 2) [.write [7, 8], .writeByte 9]).bytes =
      opsBytes [.write [7, 8], .writeByte 9] ∧
    (runOps (DynamicBuffer.make 2) [.write [7, 8], .writeByte 9]).readInto [0, 0, 0] =
      .ok (opsBytes [.write [7, 8], .writeByte 9] ++
        ([0, 0, 0] : List Nat).drop (opsBytes [.write [7, 8], .writeByte 9]).length) := by
  have h := dynbuf_accumulates 2 [.write [7, 8], .writeByte 9] (by unfold opsValid; decide)
  exact ⟨h.1, h.2.1, h.2.2.1, h.2.2.2 [0, 0, 0] (by decide)⟩

theorem writeByte_single_growth_witness :
    ((DynamicBuffer.make 0).writeByte 7).length = (DynamicBuffer.make 0).length + 1 ∧
    ((DynamicBuffer.make 0).writeByte 7).bytes = (DynamicBuffer.make 0).bytes ++ [7] ∧
    ((DynamicBuffer.make 0).writeByte 7).value.length =
      ((DynamicBuffer.make 0).writeByte 7).capacity ∧
    ((DynamicBuffer.make 0).writeByte 7).capacity =
      (if (DynamicBuffer.make 0).length + 1 ≤ (DynamicBuffer.make 0).capacity
        then (DynamicBuffer.make 0).capacity
        else max 1 (2 * (DynamicBuffer.make 0).capacity)) ∧
    ((DynamicBuffer.make 0).writeByte 7).length ≤ ((DynamicBuffer.make 0).writeByte 7).capacity :=
  writeByte_single_growth (DynamicBuffer.make 0) 7 (by norm_num) rfl (by decide)
